import Mathlib

/-!
# Verification of the anime-fiesta project/job event relay

Shallow embedding of the backend source (the Express server driving the
Sogni provider): outbound progress normalization, the per-project event
bridge (`onProject` / `onJob` with its completion delay, detach, and
deferred registry cleanup), the SSE fan-out (`emitToProject`), the
`activeProjects` registry, and the prompt-variation generator
(`generateOnePieceVariations`) together with the `/api/generate` route.

Times and delays are modelled as integers (milliseconds); raw provider
progress values are rationals.  Deferred actions (`setTimeout`) become
explicit timers; the single-threaded event loop becomes a fold over the
incoming provider events that first fires every timer due at or before
the event's arrival time, and a final flush that fires the remaining
timers.
-/

namespace Bridge

/-- Modelled from the spec (§4.3): `clamp01` is referenced by `onJob` but its
definition is not among the source files; the spec says raw progress is
clamped to the interval from 0 to 1. -/
def clamp01 (x : ℚ) : ℚ := max 0 (min 1 x)

/-- JavaScript `Math.round`: round half toward positive infinity. -/
def jsRound (x : ℚ) : ℤ := Int.floor (x + 1 / 2)

/-- The outbound percent computed by `onJob` for a `progress` event:
`Math.round(clamp01(evt.progress) * 100)`. -/
def progressPercent (p : ℚ) : ℤ := jsRound (clamp01 p * 100)

/-- Normalized outbound events, as pushed to the fan-out hub by
`emitToProject` (the `type` field of the serialized payload). -/
inductive OEvent where
  | progress (jobId : String) (percent : ℤ)
  | jobCompleted (jobId : String) (resultUrl : String) (positivePrompt : String)
  | completed
  | failed (error : String)
deriving DecidableEq

/-- Kinds of incoming provider events.  A `jobCompleted` provider event
carries the result URL that `ensureJobResultUrl` ultimately resolves
(that helper is not among the source files; per the spec §4.3 the bridge
obtains the result from the provider before emitting) together with
`fetchLatency`, the duration of that resolution: `0` when the event
already carries the URL (the `await` resumes in the same microtask turn),
positive when a provider round-trip is needed. -/
inductive PKind where
  | progress (jobId : String) (value : ℚ)
  | jobCompleted (jobId : String) (resultUrl : String) (positivePrompt : String)
      (fetchLatency : ℤ)
  | projectCompleted
  | projectError (error : String)
deriving DecidableEq

/-- A provider event: arrival time (ms), the project id it carries, and its
kind. -/
structure PEvent where
  time : ℤ
  projectId : String
  kind : PKind
deriving DecidableEq

/-- Deferred actions armed by the bridge: the 2000 ms completion delay, a
pending `ensureJobResultUrl` resolution, and the 600000 ms registry
cleanup armed by `detach`. -/
inductive TimerKind where
  | completion
  | fetchDone (jobId : String) (resultUrl : String) (positivePrompt : String)
  | removal
deriving DecidableEq

/-- A pending timer. -/
structure Timer where
  fireAt : ℤ
  kind : TimerKind
deriving DecidableEq

/-- Bridge state for one project: whether the `project`/`job` listeners are
still attached, whether the `activeProjects` registry still holds the
entry, the time the listeners were first detached, the time the entry was
actually deleted, the pending timers, and the events pushed to the hub so
far (with their push times). -/
structure St where
  attached : Bool
  registry : Bool
  detachedAt : Option ℤ
  removedAt : Option ℤ
  timers : List Timer
  out : List (ℤ × OEvent)
deriving DecidableEq

/-- Initial state: listeners attached, registry entry present. -/
def St.init : St :=
  { attached := true, registry := true, detachedAt := none, removedAt := none
    timers := [], out := [] }

/-- The source's `detach()`: remove both listeners and arm the 600000 ms
deferred `activeProjects.delete`.  The first detach time is recorded. -/
def doDetach (now : ℤ) (s : St) : St :=
  { s with attached := false
           detachedAt := some (s.detachedAt.getD now)
           timers := s.timers ++ [⟨now + 600000, TimerKind.removal⟩] }

/-- Fire one timer.  The completion timer emits `completed` and then calls
`detach()` (mirroring the `setTimeout` body in `onProject`); a resolved
result fetch emits the pending `jobCompleted`; the removal timer performs
`activeProjects.delete(projectId)`, a no-op when the entry is already
gone. -/
def fireTimer (t : Timer) (s : St) : St :=
  match t.kind with
  | TimerKind.completion =>
      doDetach t.fireAt { s with out := s.out ++ [(t.fireAt, OEvent.completed)] }
  | TimerKind.fetchDone j u p =>
      { s with out := s.out ++ [(t.fireAt, OEvent.jobCompleted j u p)] }
  | TimerKind.removal =>
      if s.registry then
        { s with registry := false, removedAt := some (s.removedAt.getD t.fireAt) }
      else s

/-- Extract a timer with minimal fire time from a list of pending timers. -/
def extractMin : List Timer → Option (Timer × List Timer)
  | [] => none
  | t :: ts =>
    match extractMin ts with
    | none => some (t, [])
    | some (m, rest) =>
      if t.fireAt ≤ m.fireAt then some (t, ts) else some (m, t :: rest)

/-- Fire, earliest first, every pending timer due at or before `now`
(fuel-driven; the fuel chosen by `fireDue` always suffices). -/
def fireDueAux : Nat → ℤ → St → St
  | 0, _, s => s
  | n + 1, now, s =>
    match extractMin s.timers with
    | none => s
    | some (m, rest) =>
      if m.fireAt ≤ now then fireDueAux n now (fireTimer m { s with timers := rest })
      else s

/-- Fire every timer due at or before `now`. -/
def fireDue (now : ℤ) (s : St) : St :=
  fireDueAux (2 * s.timers.length + 1) now s

/-- Fire all remaining timers, earliest first (fuel-driven). -/
def flushAux : Nat → St → St
  | 0, s => s
  | n + 1, s =>
    match extractMin s.timers with
    | none => s
    | some (m, rest) => flushAux n (fireTimer m { s with timers := rest })

/-- Fire all remaining timers, earliest first. -/
def flushTimers (s : St) : St :=
  flushAux (2 * s.timers.length + 1) s

/-- Handle one incoming provider event, mirroring `onProject` and `onJob`.
Listeners receive events only while attached; events for another project
are filtered out by the `evt.projectId !== projectId` guard.  A `progress`
event emits the clamped, rounded percent immediately; a job `completed`
event emits once `ensureJobResultUrl` resolves (inline when the latency is
zero, otherwise via a pending timer); a project `completed` event arms the
2000 ms delay; a project `error` event emits `failed` with the provider's
error detail immediately and detaches. -/
def handleEvent (projectId : String) (e : PEvent) (s : St) : St :=
  if e.projectId ≠ projectId then s
  else if s.attached = false then s
  else
    match e.kind with
    | PKind.progress j v =>
        { s with out := s.out ++ [(e.time, OEvent.progress j (progressPercent v))] }
    | PKind.jobCompleted j u p lat =>
        if lat = 0 then
          { s with out := s.out ++ [(e.time, OEvent.jobCompleted j u p)] }
        else
          { s with timers := s.timers ++ [⟨e.time + lat, TimerKind.fetchDone j u p⟩] }
    | PKind.projectCompleted =>
        { s with timers := s.timers ++ [⟨e.time + 2000, TimerKind.completion⟩] }
    | PKind.projectError err =>
        doDetach e.time { s with out := s.out ++ [(e.time, OEvent.failed err)] }

/-- Process a list of provider events in arrival order; before each event
every timer due at or before its arrival time fires. -/
def runAux (projectId : String) : List PEvent → St → St
  | [], s => s
  | e :: rest, s => runAux projectId rest (handleEvent projectId e (fireDue e.time s))

/-- Full run of the bridge on a provider event sequence: process all events
and then let the remaining timers fire. -/
def run (projectId : String) (evs : List PEvent) : St :=
  flushTimers (runAux projectId evs St.init)

/-- Spec lifecycle states of a project (§3). -/
inductive PState where
  | pending
  | completed
  | failed
deriving DecidableEq

/-- One step of the observable lifecycle: terminal broadcasts set the
terminal state. -/
def stepLifecycle (st : PState) (e : OEvent) : PState :=
  match e with
  | OEvent.completed => PState.completed
  | OEvent.failed _ => PState.failed
  | _ => st

/-- The project lifecycle as observable from the events pushed to the hub
(the source stores no explicit state field; the spec's `pending →
running → terminal` states are realized by the terminal broadcasts). -/
def lifecycleOf (out : List (ℤ × OEvent)) : PState :=
  out.foldl (fun st te => stepLifecycle st te.2) PState.pending

/-- The outbound normalization of a provider event. -/
def normalizeEvent (e : PEvent) : OEvent :=
  match e.kind with
  | PKind.progress j v => OEvent.progress j (progressPercent v)
  | PKind.jobCompleted j u p _ => OEvent.jobCompleted j u p
  | PKind.projectCompleted => OEvent.completed
  | PKind.projectError err => OEvent.failed err

/-- Whether an outbound event is the project-level `completed` broadcast. -/
def isCompletedEv : OEvent → Bool
  | OEvent.completed => true
  | _ => false

/-- Whether an outbound event is the project-level `failed` broadcast. -/
def isFailedEv : OEvent → Bool
  | OEvent.failed _ => true
  | _ => false

/-- Whether a provider event's result-URL resolution is instantaneous. -/
def fetchLatencyZero (e : PEvent) : Bool :=
  match e.kind with
  | PKind.jobCompleted _ _ _ lat => lat == 0
  | _ => true

/-- Some pushed event in the list is a `failed` broadcast. -/
def anyFailed (out : List (ℤ × OEvent)) : Prop := ∃ x ∈ out, isFailedEv x.2 = true

/-- Some pushed event in the list is a `completed` broadcast. -/
def anyCompleted (out : List (ℤ × OEvent)) : Prop := ∃ x ∈ out, isCompletedEv x.2 = true

/-- A `failed` broadcast has been pushed to the hub. -/
def hasFailed (s : St) : Prop := anyFailed s.out

/-- A `completed` broadcast has been pushed to the hub. -/
def hasCompleted (s : St) : Prop := anyCompleted s.out

/-- Fuel measure for the timer-firing loops: a completion timer may arm one
removal timer when it fires, so it weighs two. -/
def timerWeight (t : Timer) : Nat :=
  match t.kind with
  | TimerKind.completion => 2
  | _ => 1

/-- Total weight of a pending-timer list. -/
def timersMeasure (ts : List Timer) : Nat := (ts.map timerWeight).sum

/-- No projectError for this project occurs while a 2000 ms completion delay
can still be pending: every projectError is preceded only by
projectCompleted notifications at least 2000 ms older. -/
def NoErrorInCompletionWindow (projectId : String) (evs : List PEvent) : Prop :=
  ∀ pre e post, evs = pre ++ e :: post → e.projectId = projectId →
    (∃ err, e.kind = PKind.projectError err) →
    ∀ e1 ∈ pre, e1.projectId = projectId → e1.kind = PKind.projectCompleted →
      e1.time + 2000 ≤ e.time

/-- Whether an outbound event is anything but the delayed project-level
`completed` broadcast. -/
def notCompletedEv (o : OEvent) : Bool := !(isCompletedEv o)

/-- No pending result-URL fetch among the timers. -/
def NoFetchTimers (ts : List Timer) : Prop :=
  ∀ t ∈ ts, ∀ j u p, t.kind ≠ TimerKind.fetchDone j u p

/-- Invariant tying every component of the bridge state to the provider
events already processed (`seen`): every timer and every pushed event is
justified by a seen provider event of the matching kind, detachment is
caused by a projectError or by a completion-delay expiry, removal timers
fire at least 600000 ms after the first detachment, and the registry entry
disappears exactly when a removal time is recorded. -/
structure Inv (projectId : String) (seen : List PEvent) (s : St) : Prop where
  timer_completion : ∀ t ∈ s.timers, t.kind = TimerKind.completion →
    ∃ e ∈ seen, e.projectId = projectId ∧ e.kind = PKind.projectCompleted ∧
      t.fireAt = e.time + 2000
  timer_fetch : ∀ t ∈ s.timers, ∀ j u p, t.kind = TimerKind.fetchDone j u p →
    ∃ e ∈ seen, e.projectId = projectId ∧
      ∃ lat, e.kind = PKind.jobCompleted j u p lat ∧ ¬lat = 0 ∧ t.fireAt = e.time + lat
  timer_removal : ∀ t ∈ s.timers, t.kind = TimerKind.removal →
    ∃ d, s.detachedAt = some d ∧ d + 600000 ≤ t.fireAt
  out_completed : ∀ x ∈ s.out, x.2 = OEvent.completed →
    ∃ e ∈ seen, e.projectId = projectId ∧ e.kind = PKind.projectCompleted ∧
      x.1 = e.time + 2000
  out_progress : ∀ x ∈ s.out, ∀ j k, x.2 = OEvent.progress j k →
    ∃ e ∈ seen, e.projectId = projectId ∧
      ∃ v, e.kind = PKind.progress j v ∧ k = progressPercent v ∧ x.1 = e.time
  out_failed : ∀ x ∈ s.out, ∀ err, x.2 = OEvent.failed err →
    ∃ e ∈ seen, e.projectId = projectId ∧ e.kind = PKind.projectError err ∧
      x.1 = e.time
  detached_shape : ∀ d, s.detachedAt = some d →
    (∃ e ∈ seen, e.projectId = projectId ∧ (∃ err, e.kind = PKind.projectError err) ∧
      d = e.time) ∨
    (∃ e ∈ seen, e.projectId = projectId ∧ e.kind = PKind.projectCompleted ∧
      d = e.time + 2000)
  attached_detached : s.attached = true → s.detachedAt = none
  detached_le_completion : ∀ d, s.detachedAt = some d →
    ∀ t ∈ s.timers, t.kind = TimerKind.completion → d ≤ t.fireAt
  removed_shape : ∀ r, s.removedAt = some r →
    ∃ d, s.detachedAt = some d ∧ d + 600000 ≤ r
  removed_registry : s.removedAt = none ↔ s.registry = true

/-- Terminal-state monotonicity of the observable lifecycle: the hub never
receives both a `failed` and a `completed` broadcast, a `failed` broadcast
happens only on the detached path, and after either terminal broadcast the
listeners are off. -/
structure Mono3 (s : St) : Prop where
  not_both : ¬(hasFailed s ∧ hasCompleted s)
  failed_detached : hasFailed s → s.attached = false
  failed_no_completion : hasFailed s → ∀ t ∈ s.timers, t.kind ≠ TimerKind.completion
  completed_detached : hasCompleted s → s.attached = false

end Bridge

namespace Hub

/-- A subscriber channel of the fan-out hub: the open SSE response object,
identified by `cid`; `failing` models a channel whose `res.write` throws
(disconnected viewer). -/
structure Chan where
  cid : Nat
  failing : Bool
deriving DecidableEq

/-- One `res.write(data)` attempt; the channel either accepts any frame or
throws on any frame. -/
def tryWrite (c : Chan) (_frame : String) : Except Unit Unit :=
  if c.failing then Except.error () else Except.ok ()

/-- The serialized SSE frame (`data: ...`); the JSON body is abstracted as
the project id followed by the payload. -/
def serializeEvent (projectId payload : String) : String :=
  "data: " ++ projectId ++ " " ++ payload

/-- The `clients.forEach(res => try res.write(data) catch ...)` loop: each
write is attempted, a throwing write is swallowed and iteration continues.
Returns the successful deliveries in iteration order. -/
def writeAll : List Chan → String → List (Nat × String)
  | [], _ => []
  | c :: rest, d =>
    match tryWrite c d with
    | Except.ok _ => (c.cid, d) :: writeAll rest d
    | Except.error _ => writeAll rest d

/-- The source's `emitToProject`: look up the project's subscriber set in
`sseClients`; when absent, return; otherwise attempt the serialized write
on every channel.  Returns the (unchanged) subscriber table and the
successful deliveries. -/
def emitToProject (m : List (String × List Chan)) (projectId payload : String) :
    List (String × List Chan) × List (Nat × String) :=
  match m.lookup projectId with
  | none => (m, [])
  | some cs => (m, writeAll cs (serializeEvent projectId payload))

end Hub

namespace Registry

/-- JavaScript `Map.prototype.set`: replace the value in place when the key
is present, append otherwise.  This is what `activeProjects.set(projectId,
project)` does on the generate route. -/
def mapSet {α : Type} : List (String × α) → String → α → List (String × α)
  | [], k, v => [(k, v)]
  | (k', v') :: rest, k, v =>
    if k' = k then (k, v) :: rest else (k', v') :: mapSet rest k v

/-- Modelled from the spec (§4.2): `create(projectId, jobIds)` fails if the
projectId is already present in the registry (`none` = invariant
violation).  This checking operation appears nowhere in the source; it is
stated here only to be compared with `mapSet`, the operation the source
actually performs. -/
def registryCreateSpec {α : Type} (m : List (String × α)) (k : String) (v : α) :
    Option (List (String × α)) :=
  if (m.lookup k).isSome then none else some (mapSet m k v)

end Registry

namespace Gen

/-- The default character rotation of `generateOnePieceVariations`. -/
def defaultCharacters : List String :=
  ["Monkey D. Luffy", "Roronoa Zoro", "Nami", "Usopp", "Sanji",
   "Tony Tony Chopper", "Nico Robin", "Franky", "Brook", "Jimbei",
   "Shanks", "Portgas D. Ace", "Trafalgar Law", "Boa Hancock"]

/-- The style rotation of `generateOnePieceVariations`. -/
def styles : List String :=
  ["Eiichiro Oda art style",
   "official One Piece manga style",
   "vibrant anime colors",
   "dynamic shonen action pose",
   "detailed line art",
   "bold inking style",
   "color spread style",
   "volume cover art style",
   "Wanted poster style",
   "anime key visual style"]

/-- The default scene rotation of `generateOnePieceVariations`. -/
def defaultScenes : List String :=
  ["on the Thousand Sunny",
   "battle scene",
   "Devil Fruit power activation",
   "in the Grand Line",
   "at Marineford",
   "in Wano Country",
   "with the Straw Hat crew",
   "using Haki",
   "in a dramatic close-up",
   "laughing together"]

/-- Character list actually used: `character ? [character] : [...]`
(the empty string is falsy in JavaScript). -/
def charactersOf (character : String) : List String :=
  if character = "" then defaultCharacters else [character]

/-- Scene list actually used: `sceneType ? [sceneType] : [...]`. -/
def scenesOf (sceneType : String) : List String :=
  if sceneType = "" then defaultScenes else [sceneType]

/-- The prompt string built in the loop body of
`generateOnePieceVariations`. -/
def variationPrompt (char base scene style : String) : String :=
  char ++ ", " ++ base ++ ", " ++ scene ++ ", " ++ style ++
    ", official One Piece artwork" ++
    ", detailed anime illustration, vibrant colors, dynamic composition"

/-- The source's loop: `for (let i = 0; i < 16; i++) variations.push(...)`,
modelled as a fold pushing onto an accumulator. -/
def generateOnePieceVariations (basePrompt character sceneType : String) :
    List String :=
  let characters := charactersOf character
  let scenes := scenesOf sceneType
  (List.range 16).foldl
    (fun acc i =>
      acc ++ [variationPrompt (characters.getD (i % characters.length) "")
        basePrompt
        (scenes.getD (i % scenes.length) "")
        (styles.getD (i % styles.length) "")])
    []

/-- Closed form of the i-th variation: the (i mod n)-th character, style and
scene choices combined with the base prompt. -/
def mkVariation (basePrompt character sceneType : String) (i : Nat) : String :=
  variationPrompt
    ((charactersOf character).getD (i % (charactersOf character).length) "")
    basePrompt
    ((scenesOf sceneType).getD (i % (scenesOf sceneType).length) "")
    (styles.getD (i % styles.length) "")

/-- The request the route sends to `client.projects.create`: model id and
render defaults, `positivePrompt` set to `variations[0]`, sixteen images,
and the seed included only when given and different from -1. -/
structure ProviderRequest where
  modelId : String
  positivePrompt : String
  negativePrompt : String
  numberOfImages : Nat
  seed : Option Int
deriving DecidableEq

/-- The `negativePrompt` render default of the source. -/
def renderNegativePrompt : String :=
  "blurry, low quality, watermark, text, signature, bad anatomy, distorted, ugly, realistic, photorealistic, 3d render"

/-- Build the provider request exactly as the `/api/generate` handler does. -/
def mkProviderRequest (prompt character sceneType : String) (seed : Option Int) :
    ProviderRequest :=
  { modelId := "flux1-schnell-fp8"
    positivePrompt := (generateOnePieceVariations prompt character sceneType).getD 0 ""
    negativePrompt := renderNegativePrompt
    numberOfImages := 16
    seed :=
      match seed with
      | some s => if s = -1 then none else some s
      | none => none }

/-- Request body of POST /api/generate. -/
structure GenerateBody where
  prompt : String
  character : String
  sceneType : String
  seed : Option Int
deriving DecidableEq

/-- One entry of the `jobs` array in the route's JSON response. -/
structure JobRef where
  id : String
  index : Nat
deriving DecidableEq

/-- The JSON response of an accepted generate request. -/
structure GenerateResponse where
  projectId : String
  jobs : List JobRef
deriving DecidableEq

/-- The project object returned by the provider: its id and the ordered
sub-task (job) id list. -/
structure ProviderProject where
  id : String
  jobs : List String
deriving DecidableEq

/-- The `project.jobs.map((j, i) => ({ id: j.id, index: i }))` mapping. -/
def jobsOut : List String → Nat → List JobRef
  | [], _ => []
  | j :: rest, i => ⟨j, i⟩ :: jobsOut rest (i + 1)

/-- Outcome of an HTTP route: a JSON body or an error status code. -/
inductive RouteResult (α : Type) where
  | ok (body : α)
  | httpError (status : Nat)
deriving DecidableEq

/-- The /api/generate route: 400 when the prompt is missing or empty
(falsy), 500 when the provider call fails, otherwise the provider's
project id and the indexed job list. -/
def generateRoute (body : GenerateBody)
    (provider : Except String ProviderProject) : RouteResult GenerateResponse :=
  if body.prompt = "" then RouteResult.httpError 400
  else
    match provider with
    | Except.error _ => RouteResult.httpError 500
    | Except.ok proj => RouteResult.ok ⟨proj.id, jobsOut proj.jobs 0⟩

end Gen

namespace Bridge

theorem extractMin_none {ts : List Timer} (h : extractMin ts = none) : ts = [] := by
  cases ts with
  | nil => rfl
  | cons t ts =>
    simp only [extractMin] at h
    cases h' : extractMin ts with
    | none => rw [h'] at h; simp at h
    | some p =>
      obtain ⟨m, rest⟩ := p
      rw [h'] at h
      dsimp only at h
      split at h <;> simp at h

theorem extractMin_perm {ts : List Timer} {m : Timer} {rest : List Timer}
    (h : extractMin ts = some (m, rest)) : ts.Perm (m :: rest) := by
  induction ts generalizing m rest with
  | nil => simp [extractMin] at h
  | cons t ts ih =>
    simp only [extractMin] at h
    cases h' : extractMin ts with
    | none =>
      rw [h'] at h
      dsimp only at h
      obtain ⟨rfl, rfl⟩ : t = m ∧ [] = rest := by
        constructor <;> [exact congrArg Prod.fst (Option.some.inj h);
          exact congrArg Prod.snd (Option.some.inj h)]
      rw [extractMin_none h']
    | some p =>
      obtain ⟨m', rest'⟩ := p
      rw [h'] at h
      dsimp only at h
      split at h
      · obtain ⟨rfl, rfl⟩ : t = m ∧ ts = rest := by
          constructor <;> [exact congrArg Prod.fst (Option.some.inj h);
            exact congrArg Prod.snd (Option.some.inj h)]
        exact List.Perm.refl _
      · obtain ⟨rfl, rfl⟩ : m' = m ∧ t :: rest' = rest := by
          constructor <;> [exact congrArg Prod.fst (Option.some.inj h);
            exact congrArg Prod.snd (Option.some.inj h)]
        exact ((ih h').cons t).trans (List.Perm.swap m' t rest')

theorem extractMin_min {ts : List Timer} {m : Timer} {rest : List Timer}
    (h : extractMin ts = some (m, rest)) : ∀ u ∈ rest, m.fireAt ≤ u.fireAt := by
  induction ts generalizing m rest with
  | nil => simp [extractMin] at h
  | cons t ts ih =>
    simp only [extractMin] at h
    cases h' : extractMin ts with
    | none =>
      rw [h'] at h
      dsimp only at h
      obtain ⟨rfl, rfl⟩ : t = m ∧ [] = rest := by
        constructor <;> [exact congrArg Prod.fst (Option.some.inj h);
          exact congrArg Prod.snd (Option.some.inj h)]
      intro u hu
      exact absurd hu (List.not_mem_nil u)
    | some p =>
      obtain ⟨m', rest'⟩ := p
      rw [h'] at h
      dsimp only at h
      split at h
      case isTrue hle =>
        obtain ⟨rfl, rfl⟩ : t = m ∧ ts = rest := by
          constructor <;> [exact congrArg Prod.fst (Option.some.inj h);
            exact congrArg Prod.snd (Option.some.inj h)]
        intro u hu
        have hu' : u ∈ m' :: rest' := (extractMin_perm h').mem_iff.mp hu
        rcases List.mem_cons.mp hu' with rfl | hu''
        · exact hle
        · exact le_trans hle (ih h' u hu'')
      case isFalse hgt =>
        obtain ⟨rfl, rfl⟩ : m' = m ∧ t :: rest' = rest := by
          constructor <;> [exact congrArg Prod.fst (Option.some.inj h);
            exact congrArg Prod.snd (Option.some.inj h)]
        intro u hu
        rcases List.mem_cons.mp hu with rfl | hu''
        · exact le_of_not_le hgt
        · exact ih h' u hu''

theorem timersMeasure_perm {ts ts' : List Timer} (h : ts.Perm ts') :
    timersMeasure ts = timersMeasure ts' :=
  (h.map timerWeight).sum_eq

theorem timerWeight_le_two (t : Timer) : timerWeight t ≤ 2 := by
  cases h : t.kind <;> simp [timerWeight, h]

theorem timerWeight_pos (t : Timer) : 1 ≤ timerWeight t := by
  cases h : t.kind <;> simp [timerWeight, h]

theorem timersMeasure_cons (t : Timer) (ts : List Timer) :
    timersMeasure (t :: ts) = timerWeight t + timersMeasure ts := by
  simp [timersMeasure]

theorem timersMeasure_append (ts ts' : List Timer) :
    timersMeasure (ts ++ ts') = timersMeasure ts + timersMeasure ts' := by
  simp [timersMeasure]

theorem timersMeasure_le (ts : List Timer) : timersMeasure ts ≤ 2 * ts.length := by
  induction ts with
  | nil => simp [timersMeasure]
  | cons t ts ih =>
    have := timerWeight_le_two t
    rw [timersMeasure_cons]
    simp only [List.length_cons]
    omega

theorem fireTimer_measure (m : Timer) (s : St) :
    timersMeasure (fireTimer m s).timers + 1 ≤ timersMeasure s.timers + timerWeight m := by
  cases hk : m.kind with
  | completion =>
    simp only [fireTimer, hk, doDetach]
    rw [timersMeasure_append]
    simp only [timerWeight, hk, timersMeasure, List.map_cons, List.map_nil,
      List.sum_cons, List.sum_nil]
    omega
  | fetchDone j u p =>
    simp only [fireTimer, hk, timerWeight]
    omega
  | removal =>
    simp only [fireTimer, hk]
    split <;> simp only [timerWeight, hk] <;> omega

theorem fireDueAux_due (n : Nat) (now : ℤ) (s : St)
    (h : timersMeasure s.timers < n) :
    ∀ t ∈ (fireDueAux n now s).timers, now < t.fireAt := by
  induction n generalizing s with
  | zero => exact absurd h (Nat.not_lt_zero _)
  | succ n ih =>
    simp only [fireDueAux]
    cases hm : extractMin s.timers with
    | none =>
      intro t ht
      rw [extractMin_none hm] at ht
      exact absurd ht (List.not_mem_nil t)
    | some p =>
      obtain ⟨m, rest⟩ := p
      dsimp only
      split
      case isTrue hle =>
        apply ih
        have h1 : timersMeasure s.timers = timersMeasure (m :: rest) :=
          timersMeasure_perm (extractMin_perm hm)
        have h2 := timersMeasure_cons m rest
        have h3 := fireTimer_measure m { s with timers := rest }
        simp only at h3
        omega
      case isFalse hgt =>
        intro t ht
        have hp : t ∈ m :: rest := (extractMin_perm hm).mem_iff.mp ht
        rcases List.mem_cons.mp hp with rfl | hu
        · omega
        · have := extractMin_min hm t hu
          omega

theorem fireDue_due (now : ℤ) (s : St) :
    ∀ t ∈ (fireDue now s).timers, now < t.fireAt := by
  apply fireDueAux_due
  have := timersMeasure_le s.timers
  omega

end Bridge

namespace Bridge

theorem mem_append_singleton {α : Type} {x y : α} {l : List α}
    (h : x ∈ l ++ [y]) : x ∈ l ∨ x = y := by
  rcases List.mem_append.mp h with h | h
  · exact Or.inl h
  · exact Or.inr (List.mem_singleton.mp h)

theorem Inv.mono {pid : String} {seen seen' : List PEvent} {s : St}
    (hsub : seen ⊆ seen') (inv : Inv pid seen s) : Inv pid seen' s := by
  obtain ⟨tc, tf, tr, oc, op, ofl, ds, ad, dlc, rs, rr⟩ := inv
  refine ⟨?_, ?_, tr, ?_, ?_, ?_, ?_, ad, dlc, rs, rr⟩
  · intro t ht hk
    obtain ⟨e, he, h1, h2, h3⟩ := tc t ht hk
    exact ⟨e, hsub he, h1, h2, h3⟩
  · intro t ht j u p hk
    obtain ⟨e, he, h1, h2⟩ := tf t ht j u p hk
    exact ⟨e, hsub he, h1, h2⟩
  · intro x hx hk
    obtain ⟨e, he, h1, h2, h3⟩ := oc x hx hk
    exact ⟨e, hsub he, h1, h2, h3⟩
  · intro x hx j k hk
    obtain ⟨e, he, h1, h2⟩ := op x hx j k hk
    exact ⟨e, hsub he, h1, h2⟩
  · intro x hx err hk
    obtain ⟨e, he, h1, h2, h3⟩ := ofl x hx err hk
    exact ⟨e, hsub he, h1, h2, h3⟩
  · intro d hd
    rcases ds d hd with ⟨e, he, h1, h2, h3⟩ | ⟨e, he, h1, h2, h3⟩
    · exact Or.inl ⟨e, hsub he, h1, h2, h3⟩
    · exact Or.inr ⟨e, hsub he, h1, h2, h3⟩

theorem inv_fireMin {pid : String} {seen : List PEvent} {s : St} {m : Timer}
    {rest : List Timer} (hm : extractMin s.timers = some (m, rest))
    (inv : Inv pid seen s) : Inv pid seen (fireTimer m { s with timers := rest }) := by
  have hperm := extractMin_perm hm
  have hmem : m ∈ s.timers := hperm.mem_iff.mpr (List.mem_cons_self m rest)
  have hrest : ∀ u ∈ rest, u ∈ s.timers := fun u hu =>
    hperm.mem_iff.mpr (List.mem_cons_of_mem m hu)
  have hmin := extractMin_min hm
  cases hk : m.kind with
  | completion =>
    simp only [fireTimer, hk, doDetach]
    obtain ⟨ec, hec, hecp, heck, hect⟩ := inv.timer_completion m hmem hk
    refine ⟨?_, ?_, ?_, ?_, ?_, ?_, ?_, ?_, ?_, ?_, ?_⟩
    · intro t ht htk
      rcases mem_append_singleton ht with h | h
      · exact inv.timer_completion t (hrest t h) htk
      · rw [h] at htk; simp at htk
    · intro t ht j u p htk
      rcases mem_append_singleton ht with h | h
      · exact inv.timer_fetch t (hrest t h) j u p htk
      · rw [h] at htk; simp at htk
    · intro t ht htk
      rcases mem_append_singleton ht with h | h
      · obtain ⟨d, hd, hdle⟩ := inv.timer_removal t (hrest t h) htk
        exact ⟨d, by simp [hd], hdle⟩
      · refine ⟨s.detachedAt.getD m.fireAt, rfl, ?_⟩
        rw [h]
        cases hda : s.detachedAt with
        | none => simp
        | some d0 =>
          have := inv.detached_le_completion d0 hda m hmem hk
          simp
          omega
    · intro x hx hxk
      rcases mem_append_singleton hx with h | h
      · exact inv.out_completed x h hxk
      · rw [h]
        exact ⟨ec, hec, hecp, heck, hect⟩
    · intro x hx j k hxk
      rcases mem_append_singleton hx with h | h
      · exact inv.out_progress x h j k hxk
      · rw [h] at hxk; simp at hxk
    · intro x hx err hxk
      rcases mem_append_singleton hx with h | h
      · exact inv.out_failed x h err hxk
      · rw [h] at hxk; simp at hxk
    · intro d hd
      cases hda : s.detachedAt with
      | none =>
        rw [hda] at hd
        simp at hd
        exact Or.inr ⟨ec, hec, hecp, heck, by omega⟩
      | some d0 =>
        rw [hda] at hd
        simp at hd
        rcases inv.detached_shape d0 hda with hcase | hcase
        · rw [hd] at hcase; exact Or.inl hcase
        · rw [hd] at hcase; exact Or.inr hcase
    · intro h; simp at h
    · intro d hd t ht htk
      rcases mem_append_singleton ht with h | h
      · cases hda : s.detachedAt with
        | none =>
          rw [hda] at hd
          simp at hd
          calc d = m.fireAt := hd.symm
            _ ≤ t.fireAt := hmin t h
        | some d0 =>
          rw [hda] at hd
          simp at hd
          rw [← hd]
          exact inv.detached_le_completion d0 hda t (hrest t h) htk
      · rw [h] at htk; simp at htk
    · intro r hr
      obtain ⟨d, hd, hdle⟩ := inv.removed_shape r hr
      exact ⟨d, by simp [hd], hdle⟩
    · exact inv.removed_registry
  | fetchDone j u p =>
    simp only [fireTimer, hk]
    refine ⟨?_, ?_, ?_, ?_, ?_, ?_, inv.detached_shape, inv.attached_detached, ?_, inv.removed_shape, inv.removed_registry⟩
    · intro t ht htk
      exact inv.timer_completion t (hrest t ht) htk
    · intro t ht j' u' p' htk
      exact inv.timer_fetch t (hrest t ht) j' u' p' htk
    · intro t ht htk
      exact inv.timer_removal t (hrest t ht) htk
    · intro x hx hxk
      rcases mem_append_singleton hx with h | h
      · exact inv.out_completed x h hxk
      · rw [h] at hxk; simp at hxk
    · intro x hx j' k hxk
      rcases mem_append_singleton hx with h | h
      · exact inv.out_progress x h j' k hxk
      · rw [h] at hxk; simp at hxk
    · intro x hx err hxk
      rcases mem_append_singleton hx with h | h
      · exact inv.out_failed x h err hxk
      · rw [h] at hxk; simp at hxk
    · intro d hd t ht htk
      exact inv.detached_le_completion d hd t (hrest t ht) htk
  | removal =>
    simp only [fireTimer, hk]
    split
    case isTrue hreg =>
      have hrnone : s.removedAt = none := inv.removed_registry.mpr hreg
      obtain ⟨d, hd, hdle⟩ := inv.timer_removal m hmem hk
      refine ⟨?_, ?_, ?_, ?_, ?_, ?_, inv.detached_shape, inv.attached_detached, ?_, ?_, ?_⟩
      · intro t ht htk
        exact inv.timer_completion t (hrest t ht) htk
      · intro t ht j u p htk
        exact inv.timer_fetch t (hrest t ht) j u p htk
      · intro t ht htk
        exact inv.timer_removal t (hrest t ht) htk
      · intro x hx hxk
        exact inv.out_completed x hx hxk
      · intro x hx j k hxk
        exact inv.out_progress x hx j k hxk
      · intro x hx err hxk
        exact inv.out_failed x hx err hxk
      · intro d' hd' t ht htk
        exact inv.detached_le_completion d' hd' t (hrest t ht) htk
      · intro r hr
        simp only at hr
        rw [hrnone] at hr
        simp at hr
        exact ⟨d, hd, by omega⟩
      · simp
    case isFalse hreg =>
      refine ⟨?_, ?_, ?_, ?_, ?_, ?_, inv.detached_shape, inv.attached_detached, ?_, inv.removed_shape, ?_⟩
      · intro t ht htk
        exact inv.timer_completion t (hrest t ht) htk
      · intro t ht j u p htk
        exact inv.timer_fetch t (hrest t ht) j u p htk
      · intro t ht htk
        exact inv.timer_removal t (hrest t ht) htk
      · intro x hx hxk
        exact inv.out_completed x hx hxk
      · intro x hx j k hxk
        exact inv.out_progress x hx j k hxk
      · intro x hx err hxk
        exact inv.out_failed x hx err hxk
      · intro d hd t ht htk
        exact inv.detached_le_completion d hd t (hrest t ht) htk
      · have : s.registry = false := by
          cases h : s.registry
          · rfl
          · exact absurd h hreg
        constructor
        · intro hn
          exact absurd (inv.removed_registry.mp hn) hreg
        · intro h
          rw [this] at h
          simp at h

end Bridge

namespace Bridge

theorem inv_handleEvent {pid : String} {seen : List PEvent} {s : St} (e : PEvent)
    (hdue : ∀ t ∈ s.timers, e.time < t.fireAt) (inv : Inv pid seen s) :
    Inv pid (seen ++ [e]) (handleEvent pid e s) := by
  have hsub : seen ⊆ seen ++ [e] := List.subset_append_left _ _
  have hemem : e ∈ seen ++ [e] := List.mem_append_right _ (List.mem_singleton.mpr rfl)
  have inv' : Inv pid (seen ++ [e]) s := Inv.mono hsub inv
  simp only [handleEvent]
  split
  case isTrue => exact inv'
  case isFalse hpid' =>
    have hpid : e.projectId = pid := not_not.mp hpid'
    split
    case isTrue => exact inv'
    case isFalse hatt' =>
      have hatt : s.attached = true := by
        revert hatt'; cases s.attached <;> simp
      have hd0 : s.detachedAt = none := inv.attached_detached hatt
      have hnorem : ∀ t ∈ s.timers, t.kind ≠ TimerKind.removal := by
        intro t ht htk
        obtain ⟨d, hd, _⟩ := inv.timer_removal t ht htk
        rw [hd0] at hd
        simp at hd
      cases hek : e.kind with
      | progress j v =>
        refine ⟨inv'.timer_completion, inv'.timer_fetch, inv'.timer_removal,
          ?_, ?_, ?_, inv'.detached_shape, inv'.attached_detached,
          inv'.detached_le_completion, inv'.removed_shape, inv'.removed_registry⟩
        · intro x hx hxk
          rcases mem_append_singleton hx with h | h
          · exact inv'.out_completed x h hxk
          · subst h; simp at hxk
        · intro x hx j' k hxk
          rcases mem_append_singleton hx with h | h
          · exact inv'.out_progress x h j' k hxk
          · subst h
            injection hxk with hj hk
            exact ⟨e, hemem, hpid, v, by rw [hek, hj], hk.symm, rfl⟩
        · intro x hx err hxk
          rcases mem_append_singleton hx with h | h
          · exact inv'.out_failed x h err hxk
          · subst h; simp at hxk
      | jobCompleted j u p lat =>
        dsimp only
        split
        case isTrue hlat =>
          refine ⟨inv'.timer_completion, inv'.timer_fetch, inv'.timer_removal,
            ?_, ?_, ?_, inv'.detached_shape, inv'.attached_detached,
            inv'.detached_le_completion, inv'.removed_shape, inv'.removed_registry⟩
          · intro x hx hxk
            rcases mem_append_singleton hx with h | h
            · exact inv'.out_completed x h hxk
            · subst h; simp at hxk
          · intro x hx j' k hxk
            rcases mem_append_singleton hx with h | h
            · exact inv'.out_progress x h j' k hxk
            · subst h; simp at hxk
          · intro x hx err hxk
            rcases mem_append_singleton hx with h | h
            · exact inv'.out_failed x h err hxk
            · subst h; simp at hxk
        case isFalse hlat =>
          refine ⟨?_, ?_, ?_, inv'.out_completed, inv'.out_progress, inv'.out_failed,
            inv'.detached_shape, inv'.attached_detached, ?_, inv'.removed_shape,
            inv'.removed_registry⟩
          · intro t ht htk
            rcases mem_append_singleton ht with h | h
            · exact inv'.timer_completion t h htk
            · subst h; simp at htk
          · intro t ht j' u' p' htk
            rcases mem_append_singleton ht with h | h
            · exact inv'.timer_fetch t h j' u' p' htk
            · subst h
              injection htk with h1 h2 h3
              subst h1; subst h2; subst h3
              exact ⟨e, hemem, hpid, lat, by rw [hek], hlat, rfl⟩
          · intro t ht htk
            rcases mem_append_singleton ht with h | h
            · exact inv'.timer_removal t h htk
            · subst h; simp at htk
          · intro d hd
            rw [hd0] at hd
            simp at hd
      | projectCompleted =>
        refine ⟨?_, ?_, ?_, inv'.out_completed, inv'.out_progress, inv'.out_failed,
          inv'.detached_shape, inv'.attached_detached, ?_, inv'.removed_shape,
          inv'.removed_registry⟩
        · intro t ht htk
          rcases mem_append_singleton ht with h | h
          · exact inv'.timer_completion t h htk
          · subst h
            exact ⟨e, hemem, hpid, hek, rfl⟩
        · intro t ht j u p htk
          rcases mem_append_singleton ht with h | h
          · exact inv'.timer_fetch t h j u p htk
          · subst h; simp at htk
        · intro t ht htk
          rcases mem_append_singleton ht with h | h
          · exact inv'.timer_removal t h htk
          · subst h; simp at htk
        · intro d hd
          rw [hd0] at hd
          simp at hd
      | projectError err =>
        simp only [doDetach, hd0]
        refine ⟨?_, ?_, ?_, ?_, ?_, ?_, ?_, ?_, ?_, ?_, ?_⟩
        · intro t ht htk
          rcases mem_append_singleton ht with h | h
          · exact inv'.timer_completion t h htk
          · subst h; simp at htk
        · intro t ht j u p htk
          rcases mem_append_singleton ht with h | h
          · exact inv'.timer_fetch t h j u p htk
          · subst h; simp at htk
        · intro t ht htk
          rcases mem_append_singleton ht with h | h
          · exact absurd htk (hnorem t h)
          · subst h
            exact ⟨e.time, by simp, le_refl _⟩
        · intro x hx hxk
          rcases mem_append_singleton hx with h | h
          · exact inv'.out_completed x h hxk
          · subst h; simp at hxk
        · intro x hx j k hxk
          rcases mem_append_singleton hx with h | h
          · exact inv'.out_progress x h j k hxk
          · subst h; simp at hxk
        · intro x hx err' hxk
          rcases mem_append_singleton hx with h | h
          · exact inv'.out_failed x h err' hxk
          · subst h
            injection hxk with herr
            exact ⟨e, hemem, hpid, by rw [hek, herr], rfl⟩
        · intro d hd
          simp at hd
          exact Or.inl ⟨e, hemem, hpid, ⟨err, hek⟩, hd.symm⟩
        · intro h; simp at h
        · intro d hd t ht htk
          simp at hd
          rcases mem_append_singleton ht with h | h
          · have := hdue t h
            omega
          · subst h; simp at htk
        · intro r hr
          obtain ⟨d, hd, _⟩ := inv'.removed_shape r hr
          rw [hd0] at hd
          simp at hd
        · exact inv'.removed_registry

end Bridge

namespace Bridge

theorem inv_fireDueAux {pid : String} {seen : List PEvent} (n : Nat) (now : ℤ)
    {s : St} (inv : Inv pid seen s) : Inv pid seen (fireDueAux n now s) := by
  induction n generalizing s with
  | zero => exact inv
  | succ n ih =>
    simp only [fireDueAux]
    cases hm : extractMin s.timers with
    | none => exact inv
    | some p =>
      obtain ⟨m, rest⟩ := p
      dsimp only
      split
      · exact ih (inv_fireMin hm inv)
      · exact inv

theorem inv_fireDue {pid : String} {seen : List PEvent} (now : ℤ) {s : St}
    (inv : Inv pid seen s) : Inv pid seen (fireDue now s) :=
  inv_fireDueAux _ now inv

theorem inv_flushAux {pid : String} {seen : List PEvent} (n : Nat) {s : St}
    (inv : Inv pid seen s) : Inv pid seen (flushAux n s) := by
  induction n generalizing s with
  | zero => exact inv
  | succ n ih =>
    simp only [flushAux]
    cases hm : extractMin s.timers with
    | none => exact inv
    | some p =>
      obtain ⟨m, rest⟩ := p
      dsimp only
      exact ih (inv_fireMin hm inv)

theorem inv_runAux {pid : String} (rest : List PEvent) :
    ∀ (seen : List PEvent) (s : St), Inv pid seen s →
      Inv pid (seen ++ rest) (runAux pid rest s) := by
  induction rest with
  | nil =>
    intro seen s inv
    simpa using inv
  | cons e rest ih =>
    intro seen s inv
    have i1 : Inv pid seen (fireDue e.time s) := inv_fireDue e.time inv
    have i2 : Inv pid (seen ++ [e]) (handleEvent pid e (fireDue e.time s)) :=
      inv_handleEvent e (fireDue_due e.time s) i1
    have i3 := ih (seen ++ [e]) _ i2
    simpa [List.append_assoc] using i3

theorem inv_init (pid : String) : Inv pid [] St.init := by
  refine ⟨?_, ?_, ?_, ?_, ?_, ?_, ?_, ?_, ?_, ?_, ?_⟩ <;>
    simp [St.init]

theorem inv_run (pid : String) (evs : List PEvent) : Inv pid evs (run pid evs) := by
  have h := inv_runAux evs [] St.init (inv_init pid)
  simp only [List.nil_append] at h
  exact inv_flushAux _ h

theorem fireTimer_out_extend (t : Timer) (s : St) :
    ∃ l, (fireTimer t s).out = s.out ++ l := by
  cases hk : t.kind with
  | completion => exact ⟨[(t.fireAt, OEvent.completed)], by simp [fireTimer, hk, doDetach]⟩
  | fetchDone j u p =>
    exact ⟨[(t.fireAt, OEvent.jobCompleted j u p)], by simp [fireTimer, hk]⟩
  | removal =>
    simp only [fireTimer, hk]
    split
    · exact ⟨[], by simp⟩
    · exact ⟨[], by simp⟩

theorem fireDueAux_out_extend (n : Nat) (now : ℤ) (s : St) :
    ∃ l, (fireDueAux n now s).out = s.out ++ l := by
  induction n generalizing s with
  | zero => exact ⟨[], by simp [fireDueAux]⟩
  | succ n ih =>
    simp only [fireDueAux]
    cases hm : extractMin s.timers with
    | none => exact ⟨[], by simp⟩
    | some p =>
      obtain ⟨m, rest⟩ := p
      dsimp only
      split
      · obtain ⟨l1, hl1⟩ := fireTimer_out_extend m { s with timers := rest }
        obtain ⟨l2, hl2⟩ := ih (fireTimer m { s with timers := rest })
        exact ⟨l1 ++ l2, by rw [hl2, hl1]; simp⟩
      · exact ⟨[], by simp⟩

theorem flushAux_out_extend (n : Nat) (s : St) :
    ∃ l, (flushAux n s).out = s.out ++ l := by
  induction n generalizing s with
  | zero => exact ⟨[], by simp [flushAux]⟩
  | succ n ih =>
    simp only [flushAux]
    cases hm : extractMin s.timers with
    | none => exact ⟨[], by simp⟩
    | some p =>
      obtain ⟨m, rest⟩ := p
      dsimp only
      obtain ⟨l1, hl1⟩ := fireTimer_out_extend m { s with timers := rest }
      obtain ⟨l2, hl2⟩ := ih (fireTimer m { s with timers := rest })
      exact ⟨l1 ++ l2, by rw [hl2, hl1]; simp⟩

theorem handleEvent_out_extend (pid : String) (e : PEvent) (s : St) :
    ∃ l, (handleEvent pid e s).out = s.out ++ l := by
  simp only [handleEvent]
  split
  · exact ⟨[], by simp⟩
  split
  · exact ⟨[], by simp⟩
  cases hek : e.kind with
  | progress j v => exact ⟨[(e.time, OEvent.progress j (progressPercent v))], by simp⟩
  | jobCompleted j u p lat =>
    dsimp only
    split
    · exact ⟨[(e.time, OEvent.jobCompleted j u p)], by simp⟩
    · exact ⟨[], by simp⟩
  | projectCompleted => exact ⟨[], by simp⟩
  | projectError err => exact ⟨[(e.time, OEvent.failed err)], by simp [doDetach]⟩

theorem runAux_out_extend (pid : String) (evs : List PEvent) (s : St) :
    ∃ l, (runAux pid evs s).out = s.out ++ l := by
  induction evs generalizing s with
  | nil => exact ⟨[], by simp [runAux]⟩
  | cons e rest ih =>
    simp only [runAux]
    obtain ⟨l1, hl1⟩ := fireDueAux_out_extend (2 * s.timers.length + 1) e.time s
    obtain ⟨l2, hl2⟩ := handleEvent_out_extend pid e (fireDue e.time s)
    obtain ⟨l3, hl3⟩ := ih (handleEvent pid e (fireDue e.time s))
    refine ⟨l1 ++ l2 ++ l3, ?_⟩
    rw [hl3, hl2]
    simp only [fireDue] at hl1 ⊢
    rw [hl1]
    simp

theorem runAux_append (pid : String) (a b : List PEvent) (s : St) :
    runAux pid (a ++ b) s = runAux pid b (runAux pid a s) := by
  induction a generalizing s with
  | nil => simp [runAux]
  | cons e a ih => simp only [List.cons_append, runAux]; exact ih _

end Bridge

namespace Bridge

theorem clamp01_nonneg (p : ℚ) : 0 ≤ clamp01 p := le_max_left 0 _

theorem clamp01_le_one (p : ℚ) : clamp01 p ≤ 1 :=
  max_le (by norm_num) (min_le_left 1 p)

theorem progressPercent_bounds (p : ℚ) :
    0 ≤ progressPercent p ∧ progressPercent p ≤ 100 := by
  simp only [progressPercent, jsRound]
  constructor
  · apply Int.le_floor.mpr
    push_cast
    nlinarith [clamp01_nonneg p]
  · have h : Int.floor (clamp01 p * 100 + 1 / 2) < 101 := by
      apply Int.floor_lt.mpr
      push_cast
      nlinarith [clamp01_le_one p]
    omega

theorem clamp01_of_one_le {p : ℚ} (h : 1 ≤ p) : clamp01 p = 1 := by
  simp only [clamp01]
  rw [min_eq_left h, max_eq_right (by norm_num : (0 : ℚ) ≤ 1)]

theorem progressPercent_fourteen_tenths : progressPercent (14 / 10 : ℚ) = 100 := by
  simp only [progressPercent, jsRound,
    clamp01_of_one_le (by norm_num : (1 : ℚ) ≤ 14 / 10)]
  rw [show (1 : ℚ) * 100 + 1 / 2 = 201 / 2 by norm_num]
  rw [Int.floor_eq_iff]
  constructor <;> norm_num

theorem run_single_progress (pid j : String) (v : ℚ) (t : ℤ) :
    (run pid [⟨t, pid, PKind.progress j v⟩]).out =
      [(t, OEvent.progress j (progressPercent v))] := by
  simp [run, runAux, fireDue, fireDueAux, flushTimers, flushAux, handleEvent,
    extractMin, St.init]

/-- Claim C1: every outbound `progress` Event carries the raw provider value
clamped to the unit interval and then rounded to the nearest integer, an
integer percent between 0 and 100; in particular a raw value of 1.4 is
reported as 100. -/
theorem claim_C1_progress_normalization (pid : String) (evs : List PEvent) :
    (∀ p : ℚ, 0 ≤ progressPercent p ∧ progressPercent p ≤ 100) ∧
    (∀ x ∈ (run pid evs).out, ∀ j k, x.2 = OEvent.progress j k →
      (0 ≤ k ∧ k ≤ 100) ∧
      ∃ e ∈ evs, e.projectId = pid ∧ ∃ v, e.kind = PKind.progress j v ∧
        k = progressPercent v ∧ x.1 = e.time) ∧
    progressPercent (14 / 10 : ℚ) = 100 := by
  refine ⟨progressPercent_bounds, ?_, progressPercent_fourteen_tenths⟩
  intro x hx j k hxk
  obtain ⟨e, he, hp, v, hkind, hk, ht⟩ := (inv_run pid evs).out_progress x hx j k hxk
  subst hk
  exact ⟨progressPercent_bounds v, e, he, hp, v, hkind, rfl, ht⟩

/-- Witness for C1 at a concrete input: a provider progress event with raw
value 1.4 is pushed as the integer percent 100. -/
theorem claim_C1_progress_normalization_witness :
    ∃ x ∈ (run "P" [⟨0, "P", PKind.progress "J" (14 / 10)⟩]).out,
      (0 ≤ (100 : ℤ) ∧ (100 : ℤ) ≤ 100) ∧
      ∃ e ∈ ([⟨0, "P", PKind.progress "J" (14 / 10)⟩] : List PEvent),
        e.projectId = "P" ∧ ∃ v, e.kind = PKind.progress "J" v ∧
          (100 : ℤ) = progressPercent v ∧ x.1 = e.time := by
  have hmem : ((0 : ℤ), OEvent.progress "J" 100) ∈
      (run "P" [⟨0, "P", PKind.progress "J" (14 / 10)⟩]).out := by
    rw [run_single_progress, progressPercent_fourteen_tenths]
    exact List.mem_singleton.mpr rfl
  exact ⟨((0 : ℤ), OEvent.progress "J" 100), hmem,
    (claim_C1_progress_normalization "P" _).2.1 _ hmem "J" 100 rfl⟩

/-- Claim C4: a `completed` Event is pushed to the hub only 2000 ms after a
project-level completed notification (never immediately), and in runs
without provider errors the listeners detach exactly at such an expiry. -/
theorem claim_C4_completion_delay (pid : String) (evs : List PEvent) :
    (∀ x ∈ (run pid evs).out, x.2 = OEvent.completed →
      ∃ e ∈ evs, e.projectId = pid ∧ e.kind = PKind.projectCompleted ∧
        x.1 = e.time + 2000) ∧
    ((∀ e ∈ evs, ∀ err, e.kind ≠ PKind.projectError err) →
      ∀ d, (run pid evs).detachedAt = some d →
        ∃ e ∈ evs, e.projectId = pid ∧ e.kind = PKind.projectCompleted ∧
          d = e.time + 2000) := by
  constructor
  · exact (inv_run pid evs).out_completed
  · intro hnoerr d hd
    rcases (inv_run pid evs).detached_shape d hd with ⟨e, he, _, ⟨err, hk⟩, _⟩ | hc
    · exact absurd hk (hnoerr e he err)
    · exact hc

/-- Witness for C4 at a concrete input: after a completed notification at
time 0, the `completed` Event is pushed at time 2000. -/
theorem claim_C4_completion_delay_witness :
    ∃ x ∈ (run "P" [⟨0, "P", PKind.projectCompleted⟩]).out,
      ∃ e ∈ ([⟨0, "P", PKind.projectCompleted⟩] : List PEvent),
        e.projectId = "P" ∧ e.kind = PKind.projectCompleted ∧ x.1 = e.time + 2000 := by
  refine ⟨((2000 : ℤ), OEvent.completed), by decide, ?_⟩
  exact (claim_C4_completion_delay "P" _).1 _ (by decide) rfl

/-- Claim C7: whenever the registry entry is removed, the recorded removal
time is at least 600000 ms after the first listener detachment; the entry
is present exactly while no removal time is recorded (so it is removed at
most once), and firing a removal timer on an already-vacated registry is a
no-op. -/
theorem claim_C7_cleanup_delay (pid : String) (evs : List PEvent) :
    (∀ r, (run pid evs).removedAt = some r →
      ∃ d, (run pid evs).detachedAt = some d ∧ d + 600000 ≤ r) ∧
    ((run pid evs).removedAt = none ↔ (run pid evs).registry = true) ∧
    (∀ (s : St) (t : Timer), s.registry = false → t.kind = TimerKind.removal →
      fireTimer t s = s) := by
  refine ⟨(inv_run pid evs).removed_shape, (inv_run pid evs).removed_registry, ?_⟩
  intro s t hreg htk
  simp [fireTimer, htk, hreg]

/-- Witness for C7 at a concrete input: after a provider error at time 0,
the registry entry is removed at time 600000, no earlier than 600000 ms
after the detachment at time 0. -/
theorem claim_C7_cleanup_delay_witness :
    (run "P" [⟨0, "P", PKind.projectError "x"⟩]).removedAt = some 600000 ∧
    ∃ d, (run "P" [⟨0, "P", PKind.projectError "x"⟩]).detachedAt = some d ∧
      d + 600000 ≤ 600000 :=
  ⟨by decide, (claim_C7_cleanup_delay "P" _).1 600000 (by decide)⟩

end Bridge

namespace Bridge

theorem lifecycleOf_append_failed (xs : List (ℤ × OEvent)) (t : ℤ) (err : String) :
    lifecycleOf (xs ++ [(t, OEvent.failed err)]) = PState.failed := by
  simp [lifecycleOf, List.foldl_append, stepLifecycle]

/-- Claim C6: when a project-level error notification arrives while the
listeners are attached, the bridge pushes a `failed` Event carrying the
provider's error detail at that very arrival time (no delay), transitions
the observable lifecycle to failed, detaches the listeners, and the pushed
`failed` Event reaches the hub in the full run. -/
theorem claim_C6_error_immediate (pid : String) (pre post : List PEvent)
    (terr : ℤ) (err : String)
    (h : (fireDue terr (runAux pid pre St.init)).attached = true) :
    (handleEvent pid ⟨terr, pid, PKind.projectError err⟩
        (fireDue terr (runAux pid pre St.init))).out
      = (fireDue terr (runAux pid pre St.init)).out ++ [(terr, OEvent.failed err)] ∧
    (handleEvent pid ⟨terr, pid, PKind.projectError err⟩
        (fireDue terr (runAux pid pre St.init))).attached = false ∧
    lifecycleOf (handleEvent pid ⟨terr, pid, PKind.projectError err⟩
        (fireDue terr (runAux pid pre St.init))).out = PState.failed ∧
    (⟨terr + 600000, TimerKind.removal⟩ : Timer) ∈
      (handleEvent pid ⟨terr, pid, PKind.projectError err⟩
        (fireDue terr (runAux pid pre St.init))).timers ∧
    (terr, OEvent.failed err) ∈
      (run pid (pre ++ ⟨terr, pid, PKind.projectError err⟩ :: post)).out := by
  have hs2 : handleEvent pid ⟨terr, pid, PKind.projectError err⟩
      (fireDue terr (runAux pid pre St.init))
      = doDetach terr { fireDue terr (runAux pid pre St.init) with
          out := (fireDue terr (runAux pid pre St.init)).out
            ++ [(terr, OEvent.failed err)] } := by
    simp [handleEvent, h]
  refine ⟨?_, ?_, ?_, ?_, ?_⟩
  · rw [hs2]; simp [doDetach]
  · rw [hs2]; simp [doDetach]
  · rw [hs2]
    simp only [doDetach]
    exact lifecycleOf_append_failed _ terr err
  · rw [hs2]
    simp only [doDetach]
    exact List.mem_append_right _ (List.mem_singleton.mpr rfl)
  · have hmem2 : (terr, OEvent.failed err) ∈
        (handleEvent pid ⟨terr, pid, PKind.projectError err⟩
          (fireDue terr (runAux pid pre St.init))).out := by
      rw [hs2]
      simp only [doDetach]
      exact List.mem_append_right _ (List.mem_singleton.mpr rfl)
    rw [run, runAux_append]
    simp only [runAux]
    obtain ⟨l3, hl3⟩ := runAux_out_extend pid post
      (handleEvent pid ⟨terr, pid, PKind.projectError err⟩
        (fireDue terr (runAux pid pre St.init)))
    rw [flushTimers]
    obtain ⟨l4, hl4⟩ := flushAux_out_extend
      (2 * (runAux pid post (handleEvent pid ⟨terr, pid, PKind.projectError err⟩
        (fireDue terr (runAux pid pre St.init)))).timers.length + 1)
      (runAux pid post (handleEvent pid ⟨terr, pid, PKind.projectError err⟩
        (fireDue terr (runAux pid pre St.init))))
    rw [hl4, hl3]
    exact List.mem_append_left _ (List.mem_append_left _ hmem2)

/-- Witness for C6 at a concrete input: with no earlier events, an error
notification at time 0 is pushed as a `failed` Event at time 0. -/
theorem claim_C6_error_immediate_witness :
    (fireDue 0 (runAux "P" [] St.init)).attached = true ∧
    ((0 : ℤ), OEvent.failed "boom") ∈
      (run "P" ([] ++ ⟨0, "P", PKind.projectError "boom"⟩ :: [])).out :=
  ⟨by decide, (claim_C6_error_immediate "P" [] [] 0 "boom" (by decide)).2.2.2.2⟩

end Bridge

namespace Bridge

theorem nofetch_fireMin {s : St} {m : Timer} {rest : List Timer}
    (hm : extractMin s.timers = some (m, rest)) (hnf : NoFetchTimers s.timers) :
    ((fireTimer m { s with timers := rest }).out.map Prod.snd).filter notCompletedEv
      = (s.out.map Prod.snd).filter notCompletedEv ∧
    NoFetchTimers (fireTimer m { s with timers := rest }).timers := by
  have hperm := extractMin_perm hm
  have hmem : m ∈ s.timers := hperm.mem_iff.mpr (List.mem_cons_self m rest)
  have hrest : ∀ u ∈ rest, u ∈ s.timers := fun u hu =>
    hperm.mem_iff.mpr (List.mem_cons_of_mem m hu)
  cases hk : m.kind with
  | completion =>
    constructor
    · simp [fireTimer, hk, doDetach, List.map_append, List.filter_append,
        notCompletedEv, isCompletedEv]
    · intro t ht j u p htk
      simp only [fireTimer, hk, doDetach] at ht
      rcases mem_append_singleton ht with h | h
      · exact hnf t (hrest t h) j u p htk
      · subst h; simp at htk
  | fetchDone j u p => exact absurd hk (hnf m hmem j u p)
  | removal =>
    constructor
    · simp only [fireTimer, hk]
      split <;> simp
    · intro t ht j u p htk
      simp only [fireTimer, hk] at ht
      have ht' : t ∈ rest := by
        revert ht
        split <;> intro ht <;> simpa using ht
      exact hnf t (hrest t ht') j u p htk

theorem nofetch_fireDueAux (n : Nat) (now : ℤ) (s : St)
    (hnf : NoFetchTimers s.timers) :
    ((fireDueAux n now s).out.map Prod.snd).filter notCompletedEv
      = (s.out.map Prod.snd).filter notCompletedEv ∧
    NoFetchTimers (fireDueAux n now s).timers := by
  induction n generalizing s with
  | zero => exact ⟨rfl, hnf⟩
  | succ n ih =>
    simp only [fireDueAux]
    cases hm : extractMin s.timers with
    | none => exact ⟨rfl, hnf⟩
    | some p =>
      obtain ⟨m, rest⟩ := p
      dsimp only
      split
      · obtain ⟨h1, h2⟩ := nofetch_fireMin hm hnf
        obtain ⟨h3, h4⟩ := ih _ h2
        exact ⟨by rw [h3, h1], h4⟩
      · exact ⟨rfl, hnf⟩

theorem nofetch_flushAux (n : Nat) (s : St) (hnf : NoFetchTimers s.timers) :
    ((flushAux n s).out.map Prod.snd).filter notCompletedEv
      = (s.out.map Prod.snd).filter notCompletedEv ∧
    NoFetchTimers (flushAux n s).timers := by
  induction n generalizing s with
  | zero => exact ⟨rfl, hnf⟩
  | succ n ih =>
    simp only [flushAux]
    cases hm : extractMin s.timers with
    | none => exact ⟨rfl, hnf⟩
    | some p =>
      obtain ⟨m, rest⟩ := p
      dsimp only
      obtain ⟨h1, h2⟩ := nofetch_fireMin hm hnf
      obtain ⟨h3, h4⟩ := ih _ h2
      exact ⟨by rw [h3, h1], h4⟩

theorem handleEvent_filtered (pid : String) (e : PEvent) (s : St)
    (hz : fetchLatencyZero e = true) :
    ∃ h, ((handleEvent pid e s).out.map Prod.snd).filter notCompletedEv
        = (s.out.map Prod.snd).filter notCompletedEv ++ h ∧
      (h = [] ∨ h = [normalizeEvent e]) ∧
      (NoFetchTimers s.timers → NoFetchTimers (handleEvent pid e s).timers) := by
  simp only [handleEvent]
  split
  · exact ⟨[], by simp, Or.inl rfl, fun h => h⟩
  split
  · exact ⟨[], by simp, Or.inl rfl, fun h => h⟩
  cases hek : e.kind with
  | progress j v =>
    refine ⟨[OEvent.progress j (progressPercent v)], ?_, ?_, fun h => h⟩
    · simp [List.map_append, List.filter_append, notCompletedEv, isCompletedEv]
    · exact Or.inr (by simp [normalizeEvent, hek])
  | jobCompleted j u p lat =>
    have hlat : lat = 0 := by
      simp [fetchLatencyZero, hek] at hz
      exact hz
    dsimp only
    split
    · refine ⟨[OEvent.jobCompleted j u p], ?_, ?_, fun h => h⟩
      · simp [List.map_append, List.filter_append, notCompletedEv, isCompletedEv]
      · exact Or.inr (by simp [normalizeEvent, hek])
    · exact absurd hlat (by assumption)
  | projectCompleted =>
    refine ⟨[], by simp, Or.inl rfl, ?_⟩
    intro hnf t ht j u p htk
    rcases mem_append_singleton ht with h | h
    · exact hnf t h j u p htk
    · subst h; simp at htk
  | projectError err =>
    refine ⟨[OEvent.failed err], ?_, ?_, ?_⟩
    · simp [doDetach, List.map_append, List.filter_append, notCompletedEv,
        isCompletedEv]
    · exact Or.inr (by simp [normalizeEvent, hek])
    · intro hnf t ht j u p htk
      simp only [doDetach] at ht
      rcases mem_append_singleton ht with h | h
      · exact hnf t h j u p htk
      · subst h; simp at htk

theorem runAux_filter_sublist (pid : String) (evs : List PEvent) :
    ∀ (s : St), (∀ e ∈ evs, fetchLatencyZero e = true) → NoFetchTimers s.timers →
    ∃ l, ((runAux pid evs s).out.map Prod.snd).filter notCompletedEv
        = (s.out.map Prod.snd).filter notCompletedEv ++ l ∧
      List.Sublist l (evs.map normalizeEvent) ∧
      NoFetchTimers (runAux pid evs s).timers := by
  induction evs with
  | nil =>
    intro s _ hnf
    exact ⟨[], by simp [runAux], List.nil_sublist _, hnf⟩
  | cons e rest ih =>
    intro s hz hnf
    simp only [runAux]
    obtain ⟨f1, f2⟩ := nofetch_fireDueAux (2 * s.timers.length + 1) e.time s hnf
    obtain ⟨h, hh, hcase, hnfp⟩ :=
      handleEvent_filtered pid e (fireDue e.time s) (hz e (List.mem_cons_self e rest))
    obtain ⟨l', hl', hsub', hnf'⟩ := ih (handleEvent pid e (fireDue e.time s))
      (fun x hx => hz x (List.mem_cons_of_mem e hx)) (hnfp f2)
    refine ⟨h ++ l', ?_, ?_, hnf'⟩
    · rw [hl', hh]
      simp only [fireDue]
      rw [f1]
      simp [List.append_assoc]
    · rcases hcase with rfl | rfl
      · simpa using List.Sublist.cons (normalizeEvent e) hsub'
      · simpa using List.Sublist.cons₂ (normalizeEvent e) hsub'

/-- Claim C2 (amended): when every job-completion provider event arrives with
its result URL already resolved (zero fetch latency), the events pushed to
the hub, excluding the delayed project-level `completed` broadcasts, form
an order-preserving subsequence of the normalized provider event sequence:
no reordering and no coalescing.  (The original claim fails when a result
URL must be fetched from the provider: see the counterexample.) -/
theorem claim_C2_order_preservation (pid : String) (evs : List PEvent)
    (hz : ∀ e ∈ evs, fetchLatencyZero e = true) :
    List.Sublist (((run pid evs).out.map Prod.snd).filter notCompletedEv)
      (evs.map normalizeEvent) := by
  obtain ⟨l, hl, hsub, hnf⟩ := runAux_filter_sublist pid evs St.init hz
    (by intro t ht; simp [St.init] at ht)
  obtain ⟨g1, _⟩ := nofetch_flushAux
    (2 * (runAux pid evs St.init).timers.length + 1) (runAux pid evs St.init) hnf
  rw [run, flushTimers, g1, hl]
  simpa [St.init] using hsub

/-- Counterexample to C2 as stated: a job-completion event whose result URL
is still being fetched (latency 5 ms) is pushed only when the fetch
resolves, after a later progress event; the push order swaps the produced
order, which the 2000 ms completion-delay exception does not cover. -/
theorem claim_C2_counterexample :
    (run "P" [⟨0, "P", PKind.jobCompleted "J" "u" "q" 5⟩,
        ⟨1, "P", PKind.progress "K" (1 / 2)⟩]).out
      = [(1, OEvent.progress "K" (progressPercent (1 / 2))),
         (5, OEvent.jobCompleted "J" "u" "q")] ∧
    ([⟨0, "P", PKind.jobCompleted "J" "u" "q" 5⟩,
        ⟨1, "P", PKind.progress "K" (1 / 2)⟩] : List PEvent).map normalizeEvent
      = [OEvent.jobCompleted "J" "u" "q",
         OEvent.progress "K" (progressPercent (1 / 2))] ∧
    ¬ List.Sublist
        [OEvent.progress "K" (progressPercent (1 / 2)),
         OEvent.jobCompleted "J" "u" "q"]
        [OEvent.jobCompleted "J" "u" "q",
         OEvent.progress "K" (progressPercent (1 / 2))] := by
  refine ⟨?_, ?_, ?_⟩
  · simp [run, runAux, fireDue, fireDueAux, flushTimers, flushAux, handleEvent,
      extractMin, fireTimer, St.init]
  · simp [normalizeEvent]
  · intro hcontra
    have := hcontra.eq_of_length rfl
    simp at this

/-- Witness for the amended C2 at a concrete zero-latency input. -/
theorem claim_C2_order_preservation_witness :
    (∀ e ∈ ([⟨0, "P", PKind.jobCompleted "J" "u" "q" 0⟩,
        ⟨1, "P", PKind.projectCompleted⟩] : List PEvent), fetchLatencyZero e = true) ∧
    List.Sublist
      (((run "P" [⟨0, "P", PKind.jobCompleted "J" "u" "q" 0⟩,
          ⟨1, "P", PKind.projectCompleted⟩]).out.map Prod.snd).filter notCompletedEv)
      (([⟨0, "P", PKind.jobCompleted "J" "u" "q" 0⟩,
          ⟨1, "P", PKind.projectCompleted⟩] : List PEvent).map normalizeEvent) :=
  ⟨by decide, claim_C2_order_preservation "P" _ (by decide)⟩

end Bridge

namespace Bridge

theorem anyFailed_append_elim {xs : List (ℤ × OEvent)} {x : ℤ × OEvent}
    (h : anyFailed (xs ++ [x])) (hx : isFailedEv x.2 = false) : anyFailed xs := by
  obtain ⟨y, hy, hf⟩ := h
  rcases mem_append_singleton hy with h' | h'
  · exact ⟨y, h', hf⟩
  · subst h'; rw [hx] at hf; simp at hf

theorem anyCompleted_append_elim {xs : List (ℤ × OEvent)} {x : ℤ × OEvent}
    (h : anyCompleted (xs ++ [x])) (hx : isCompletedEv x.2 = false) :
    anyCompleted xs := by
  obtain ⟨y, hy, hf⟩ := h
  rcases mem_append_singleton hy with h' | h'
  · exact ⟨y, h', hf⟩
  · subst h'; rw [hx] at hf; simp at hf

theorem mono3_fireMin {s : St} {m : Timer} {rest : List Timer}
    (hm : extractMin s.timers = some (m, rest)) (m3 : Mono3 s) :
    Mono3 (fireTimer m { s with timers := rest }) := by
  have hperm := extractMin_perm hm
  have hmem : m ∈ s.timers := hperm.mem_iff.mpr (List.mem_cons_self m rest)
  have hrest : ∀ u ∈ rest, u ∈ s.timers := fun u hu =>
    hperm.mem_iff.mpr (List.mem_cons_of_mem m hu)
  cases hk : m.kind with
  | completion =>
    have hnf : ¬hasFailed s := fun hf => (m3.failed_no_completion hf m hmem) hk
    simp only [fireTimer, hk, doDetach]
    refine ⟨?_, ?_, ?_, ?_⟩
    · rintro ⟨hf', _⟩
      exact hnf (anyFailed_append_elim hf' rfl)
    · intro hf'
      exact absurd (anyFailed_append_elim hf' rfl) hnf
    · intro hf'
      exact absurd (anyFailed_append_elim hf' rfl) hnf
    · intro _; rfl
  | fetchDone j u p =>
    simp only [fireTimer, hk]
    refine ⟨?_, ?_, ?_, ?_⟩
    · rintro ⟨hf', hc'⟩
      exact m3.not_both ⟨anyFailed_append_elim hf' rfl, anyCompleted_append_elim hc' rfl⟩
    · intro hf'
      exact m3.failed_detached (anyFailed_append_elim hf' rfl)
    · intro hf' t ht htk
      exact m3.failed_no_completion (anyFailed_append_elim hf' rfl) t (hrest t ht) htk
    · intro hc'
      exact m3.completed_detached (anyCompleted_append_elim hc' rfl)
  | removal =>
    simp only [fireTimer, hk]
    split
    · refine ⟨m3.not_both, m3.failed_detached, ?_, m3.completed_detached⟩
      intro hf t ht htk
      exact m3.failed_no_completion hf t (hrest t ht) htk
    · refine ⟨m3.not_both, m3.failed_detached, ?_, m3.completed_detached⟩
      intro hf t ht htk
      exact m3.failed_no_completion hf t (hrest t ht) htk

theorem mono3_fireDueAux (n : Nat) (now : ℤ) {s : St} (m3 : Mono3 s) :
    Mono3 (fireDueAux n now s) := by
  induction n generalizing s with
  | zero => exact m3
  | succ n ih =>
    simp only [fireDueAux]
    cases hm : extractMin s.timers with
    | none => exact m3
    | some p =>
      obtain ⟨m, rest⟩ := p
      dsimp only
      split
      · exact ih (mono3_fireMin hm m3)
      · exact m3

theorem mono3_flushAux (n : Nat) {s : St} (m3 : Mono3 s) : Mono3 (flushAux n s) := by
  induction n generalizing s with
  | zero => exact m3
  | succ n ih =>
    simp only [flushAux]
    cases hm : extractMin s.timers with
    | none => exact m3
    | some p =>
      obtain ⟨m, rest⟩ := p
      dsimp only
      exact ih (mono3_fireMin hm m3)

theorem mono3_handleEvent {pid : String} {evs seen rest' : List PEvent} {s : St}
    (e : PEvent) (hsplit : evs = seen ++ e :: rest')
    (H : NoErrorInCompletionWindow pid evs)
    (hdue : ∀ t ∈ s.timers, e.time < t.fireAt)
    (inv : Inv pid seen s) (m3 : Mono3 s) : Mono3 (handleEvent pid e s) := by
  simp only [handleEvent]
  split
  · exact m3
  case isFalse hpid' =>
  have hpid : e.projectId = pid := not_not.mp hpid'
  split
  · exact m3
  case isFalse hatt' =>
  have hatt : s.attached = true := by
    revert hatt'; cases s.attached <;> simp
  have hnf : ¬hasFailed s := fun hf => by
    rw [m3.failed_detached hf] at hatt; simp at hatt
  have hnc : ¬hasCompleted s := fun hc => by
    rw [m3.completed_detached hc] at hatt; simp at hatt
  cases hek : e.kind with
  | progress j v =>
    refine ⟨?_, ?_, ?_, ?_⟩
    · rintro ⟨hf', _⟩
      exact hnf (anyFailed_append_elim hf' rfl)
    · intro hf'
      exact absurd (anyFailed_append_elim hf' rfl) hnf
    · intro hf'
      exact absurd (anyFailed_append_elim hf' rfl) hnf
    · intro hc'
      exact absurd (anyCompleted_append_elim hc' rfl) hnc
  | jobCompleted j u p lat =>
    dsimp only
    split
    · refine ⟨?_, ?_, ?_, ?_⟩
      · rintro ⟨hf', _⟩
        exact hnf (anyFailed_append_elim hf' rfl)
      · intro hf'
        exact absurd (anyFailed_append_elim hf' rfl) hnf
      · intro hf'
        exact absurd (anyFailed_append_elim hf' rfl) hnf
      · intro hc'
        exact absurd (anyCompleted_append_elim hc' rfl) hnc
    · refine ⟨?_, ?_, ?_, ?_⟩
      · rintro ⟨hf', _⟩
        exact absurd hf' hnf
      · intro hf'
        exact absurd hf' hnf
      · intro hf'
        exact absurd hf' hnf
      · intro hc'
        exact absurd hc' hnc
  | projectCompleted =>
    refine ⟨?_, ?_, ?_, ?_⟩
    · rintro ⟨hf', _⟩
      exact absurd hf' hnf
    · intro hf'
      exact absurd hf' hnf
    · intro hf'
      exact absurd hf' hnf
    · intro hc'
      exact absurd hc' hnc
  | projectError err =>
    simp only [doDetach]
    refine ⟨?_, ?_, ?_, ?_⟩
    · rintro ⟨_, hc'⟩
      exact hnc (anyCompleted_append_elim hc' rfl)
    · intro _; rfl
    · intro _ t ht htk
      rcases mem_append_singleton ht with h | h
      · obtain ⟨e1, he1, hp1, hk1, hfire⟩ := inv.timer_completion t h htk
        have h1 := hdue t h
        have h2 := H seen e rest' hsplit hpid ⟨err, hek⟩ e1 he1 hp1 hk1
        omega
      · subst h; simp at htk
    · intro _; rfl

theorem mono3_init : Mono3 St.init := by
  refine ⟨?_, ?_, ?_, ?_⟩
  · rintro ⟨⟨x, hx, _⟩, _⟩
    simp [St.init] at hx
  · rintro ⟨x, hx, _⟩
    simp [St.init] at hx
  · rintro ⟨x, hx, _⟩
    simp [St.init] at hx
  · rintro ⟨x, hx, _⟩
    simp [St.init] at hx

theorem mono3_runAux {pid : String} {evs : List PEvent}
    (H : NoErrorInCompletionWindow pid evs) (rest : List PEvent) :
    ∀ (seen : List PEvent) (s : St), evs = seen ++ rest →
      Inv pid seen s → Mono3 s → Mono3 (runAux pid rest s) := by
  induction rest with
  | nil => intro seen s _ _ m3; exact m3
  | cons e rest' ih =>
    intro seen s hsplit inv m3
    simp only [runAux]
    have inv1 : Inv pid seen (fireDue e.time s) := inv_fireDue e.time inv
    have m31 : Mono3 (fireDue e.time s) := mono3_fireDueAux _ e.time m3
    have m32 : Mono3 (handleEvent pid e (fireDue e.time s)) :=
      mono3_handleEvent e hsplit H (fireDue_due e.time s) inv1 m31
    have inv2 : Inv pid (seen ++ [e]) (handleEvent pid e (fireDue e.time s)) :=
      inv_handleEvent e (fireDue_due e.time s) inv1
    exact ih (seen ++ [e]) _ (by rw [hsplit]; simp) inv2 m32

/-- Claim C3 (amended): provided no projectError for the project arrives less
than 2000 ms after an earlier projectCompleted notification (so no
completion delay is pending when an error is handled), the observable
lifecycle never regresses: the hub never receives both a `failed` and a
`completed` broadcast.  Moreover once the listeners are detached
(terminal), any further provider event for the project is dropped
silently.  (Without that proviso the claim fails: see the
counterexample, where a failed project is later broadcast completed.) -/
theorem claim_C3_lifecycle_monotonic (pid : String) (evs : List PEvent)
    (H : NoErrorInCompletionWindow pid evs) :
    ¬(hasFailed (run pid evs) ∧ hasCompleted (run pid evs)) ∧
    (∀ (e : PEvent) (s : St), s.attached = false → handleEvent pid e s = s) := by
  constructor
  · have m3r : Mono3 (run pid evs) := by
      rw [run, flushTimers]
      exact mono3_flushAux _
        (mono3_runAux H evs [] St.init rfl (inv_init pid) mono3_init)
    exact m3r.not_both
  · intro e s h
    simp [handleEvent, h]

/-- Counterexample to C3 as stated: a projectError arriving 1 ms after a
projectCompleted notification produces a `failed` broadcast at time 1, yet
the already-armed completion delay still fires and broadcasts `completed`
at time 2000 — the lifecycle regresses from failed to completed, and both
terminal broadcasts reach the hub. -/
theorem claim_C3_counterexample :
    lifecycleOf (runAux "P" [⟨0, "P", PKind.projectCompleted⟩,
        ⟨1, "P", PKind.projectError "boom"⟩] St.init).out = PState.failed ∧
    (run "P" [⟨0, "P", PKind.projectCompleted⟩,
        ⟨1, "P", PKind.projectError "boom"⟩]).out
      = [(1, OEvent.failed "boom"), (2000, OEvent.completed)] ∧
    lifecycleOf (run "P" [⟨0, "P", PKind.projectCompleted⟩,
        ⟨1, "P", PKind.projectError "boom"⟩]).out = PState.completed ∧
    hasFailed (run "P" [⟨0, "P", PKind.projectCompleted⟩,
        ⟨1, "P", PKind.projectError "boom"⟩]) ∧
    hasCompleted (run "P" [⟨0, "P", PKind.projectCompleted⟩,
        ⟨1, "P", PKind.projectError "boom"⟩]) := by
  refine ⟨by decide, by decide, by decide, ?_, ?_⟩
  · exact ⟨(1, OEvent.failed "boom"), by decide, rfl⟩
  · exact ⟨(2000, OEvent.completed), by decide, rfl⟩

/-- Witness for the amended C3 at a concrete input: a single error
notification (no pending completion delay) yields no completed broadcast
alongside the failed one. -/
theorem claim_C3_lifecycle_monotonic_witness :
    NoErrorInCompletionWindow "P" [⟨0, "P", PKind.projectError "boom"⟩] ∧
    ¬(hasFailed (run "P" [⟨0, "P", PKind.projectError "boom"⟩]) ∧
      hasCompleted (run "P" [⟨0, "P", PKind.projectError "boom"⟩])) := by
  have hH : NoErrorInCompletionWindow "P" [⟨0, "P", PKind.projectError "boom"⟩] := by
    intro pre e post hsplit _ _ e1 he1 _ _
    cases pre with
    | nil => simp at he1
    | cons a pre' =>
      simp only [List.cons_append] at hsplit
      have hlen := congrArg List.length hsplit
      simp [List.length_append] at hlen
  exact ⟨hH, (claim_C3_lifecycle_monotonic "P" _ hH).1⟩

end Bridge

namespace Hub

theorem writeAll_eq (cs : List Chan) (d : String) :
    writeAll cs d
      = cs.filterMap (fun c => if c.failing then none else some (c.cid, d)) := by
  induction cs with
  | nil => rfl
  | cons c rest ih =>
    by_cases h : c.failing
    · simp [writeAll, tryWrite, h, ih]
    · simp [writeAll, tryWrite, h, ih]

/-- Claim C5 (amended): `emitToProject` never mutates the subscriber table —
in particular a failed write does not remove the failed Subscriber from
the set (removal happens only when the connection closes, outside
broadcast); a failing channel is skipped and the serialized event is still
delivered to every non-failing channel in iteration order (the throw is
swallowed, the function is total so no exception reaches the bridge); and
a broadcast to a project id with no subscriber set delivers nothing and
does not error. -/
theorem claim_C5_broadcast_failure (m : List (String × List Chan))
    (pid payload : String) :
    (emitToProject m pid payload).1 = m ∧
    (∀ cs, m.lookup pid = some cs →
      (emitToProject m pid payload).2
        = cs.filterMap (fun c => if c.failing then none
            else some (c.cid, serializeEvent pid payload))) ∧
    (m.lookup pid = none → (emitToProject m pid payload).2 = []) := by
  refine ⟨?_, ?_, ?_⟩
  · simp only [emitToProject]
    cases m.lookup pid <;> rfl
  · intro cs h
    simp [emitToProject, h, writeAll_eq]
  · intro h
    simp [emitToProject, h]

/-- Counterexample to C5 as stated: after a broadcast in which the write to
subscriber 0 throws, subscriber 0 is still in the project's subscriber set
(the source's `emitToProject` only swallows the exception; it performs no
removal), while delivery to subscriber 1 succeeded. -/
theorem claim_C5_counterexample :
    (emitToProject [("P", [⟨0, true⟩, ⟨1, false⟩])] "P" "x").1
      = [("P", [⟨0, true⟩, ⟨1, false⟩])] ∧
    (([("P", [⟨0, true⟩, ⟨1, false⟩])] : List (String × List Chan)).lookup "P")
      = some [⟨0, true⟩, ⟨1, false⟩] ∧
    (emitToProject [("P", [⟨0, true⟩, ⟨1, false⟩])] "P" "x").2
      = [(1, serializeEvent "P" "x")] := by
  refine ⟨?_, ?_, ?_⟩ <;> decide

/-- Witness for the amended C5 at a concrete input: the broadcast skips the
failing subscriber 0, delivers to subscriber 1, and leaves the table
unchanged. -/
theorem claim_C5_broadcast_failure_witness :
    (emitToProject [("P", [⟨0, true⟩, ⟨1, false⟩])] "P" "y").1
      = [("P", [⟨0, true⟩, ⟨1, false⟩])] ∧
    (([("P", [⟨0, true⟩, ⟨1, false⟩])] : List (String × List Chan)).lookup "P"
      = some [⟨0, true⟩, ⟨1, false⟩]) ∧
    (emitToProject [("P", [⟨0, true⟩, ⟨1, false⟩])] "P" "y").2
      = ([⟨0, true⟩, ⟨1, false⟩] : List Chan).filterMap
          (fun c => if c.failing then none
            else some (c.cid, serializeEvent "P" "y")) :=
  ⟨(claim_C5_broadcast_failure _ "P" "y").1, by decide,
   (claim_C5_broadcast_failure [("P", [⟨0, true⟩, ⟨1, false⟩])] "P" "y").2.1
     [⟨0, true⟩, ⟨1, false⟩] (by decide)⟩

end Hub

namespace Registry

theorem lookup_mapSet_self {α : Type} (m : List (String × α)) (k : String) (v : α) :
    (mapSet m k v).lookup k = some v := by
  induction m with
  | nil => simp [mapSet, List.lookup]
  | cons p rest ih =>
    obtain ⟨k', v'⟩ := p
    simp only [mapSet]
    split
    · simp [List.lookup]
    case isFalse h =>
      have hb : (k == k') = false := beq_eq_false_iff_ne.mpr (fun hh => h hh.symm)
      simp [List.lookup, hb, ih]

theorem lookup_mapSet_other {α : Type} (m : List (String × α)) (k : String) (v : α)
    (k' : String) (h : k' ≠ k) :
    (mapSet m k v).lookup k' = m.lookup k' := by
  induction m with
  | nil =>
    have hb : (k' == k) = false := beq_eq_false_iff_ne.mpr h
    simp [mapSet, List.lookup, hb]
  | cons p rest ih =>
    obtain ⟨k'', v''⟩ := p
    simp only [mapSet]
    split
    case isTrue heq =>
      subst heq
      have hb : (k' == k'') = false := beq_eq_false_iff_ne.mpr h
      simp [List.lookup, hb]
    case isFalse hne =>
      by_cases hcase : k' = k''
      · subst hcase
        simp [List.lookup]
      · have hb : (k' == k'') = false := beq_eq_false_iff_ne.mpr hcase
        simp [List.lookup, hb, ih]

/-- Claim C8 (amended): the registry create operation the source performs,
`activeProjects.set(projectId, project)`, does no duplicate check: called
with a projectId already present it succeeds and silently replaces the
existing entry, leaving every other key unchanged; it never fails. -/
theorem claim_C8_registry_create {α : Type} (m : List (String × α)) (k : String)
    (v : α) :
    (mapSet m k v).lookup k = some v ∧
    (∀ k', k' ≠ k → (mapSet m k v).lookup k' = m.lookup k') :=
  ⟨lookup_mapSet_self m k v, fun k' h => lookup_mapSet_other m k v k' h⟩

/-- Counterexample to C8 as stated: with "P" already mapped to 1, the
spec-modelled checking create fails, but the operation the source performs
silently replaces the entry with 2 — no failure is raised. -/
theorem claim_C8_counterexample :
    registryCreateSpec [("P", (1 : Nat))] "P" 2 = none ∧
    mapSet [("P", (1 : Nat))] "P" 2 = [("P", 2)] ∧
    (mapSet [("P", (1 : Nat))] "P" 2).lookup "P" = some 2 ∧
    ([("P", (1 : Nat))] : List (String × Nat)).lookup "P" = some 1 := by
  refine ⟨?_, ?_, ?_, ?_⟩ <;> decide

/-- Witness for the amended C8 at a concrete input: setting "P" over an
existing entry replaces it and leaves key "Q" unchanged. -/
theorem claim_C8_registry_create_witness :
    (mapSet [("P", (1 : Nat))] "P" 2).lookup "P" = some 2 ∧
    ("Q" : String) ≠ "P" ∧
    (mapSet [("P", (1 : Nat))] "P" 2).lookup "Q"
      = ([("P", (1 : Nat))] : List (String × Nat)).lookup "Q" :=
  ⟨(claim_C8_registry_create [("P", 1)] "P" 2).1, by decide,
   (claim_C8_registry_create [("P", 1)] "P" 2).2 "Q" (by decide)⟩

end Registry

namespace Gen

theorem foldl_push_eq_map {α β : Type} (f : α → β) (l : List α) :
    ∀ acc : List β, l.foldl (fun acc i => acc ++ [f i]) acc = acc ++ l.map f := by
  induction l with
  | nil => intro acc; simp
  | cons x xs ih =>
    intro acc
    simp only [List.foldl_cons, List.map_cons]
    rw [ih]
    simp

theorem generateOnePieceVariations_eq (b c s : String) :
    generateOnePieceVariations b c s = (List.range 16).map (mkVariation b c s) := by
  have h := foldl_push_eq_map (mkVariation b c s) (List.range 16) []
  simpa [generateOnePieceVariations, mkVariation] using h

theorem gen_length (b c s : String) :
    (generateOnePieceVariations b c s).length = 16 := by
  rw [generateOnePieceVariations_eq]
  simp

theorem jobsOut_length (js : List String) : ∀ i, (jobsOut js i).length = js.length := by
  induction js with
  | nil => intro i; rfl
  | cons j rest ih => intro i; simp [jobsOut, ih]

theorem jobsOut_map_index (js : List String) :
    ∀ i, (jobsOut js i).map JobRef.index = List.range' i js.length := by
  induction js with
  | nil => intro i; simp [jobsOut]
  | cons j rest ih =>
    intro i
    simp [jobsOut, ih, List.range'_succ]

theorem jobsOut_map_id (js : List String) :
    ∀ i, (jobsOut js i).map JobRef.id = js := by
  induction js with
  | nil => intro i; rfl
  | cons j rest ih => intro i; simp [jobsOut, ih]

/-- Claim C9: an accepted generate request (prompt present, provider call
succeeded honouring the requested sixteen images) is answered with the
provider's projectId and exactly 16 job entries whose index fields are the
consecutive integers 0..15 and whose ids follow the provider's sub-task
order. -/
theorem claim_C9_generate_response (body : GenerateBody) (proj : ProviderProject)
    (hprompt : ¬body.prompt = "")
    (hjobs : proj.jobs.length
      = (mkProviderRequest body.prompt body.character body.sceneType
          body.seed).numberOfImages) :
    generateRoute body (Except.ok proj)
      = RouteResult.ok ⟨proj.id, jobsOut proj.jobs 0⟩ ∧
    (jobsOut proj.jobs 0).length = 16 ∧
    (jobsOut proj.jobs 0).map JobRef.index = List.range 16 ∧
    (jobsOut proj.jobs 0).map JobRef.id = proj.jobs := by
  have h16 : proj.jobs.length = 16 := by
    simpa [mkProviderRequest] using hjobs
  refine ⟨?_, ?_, ?_, ?_⟩
  · simp [generateRoute, hprompt]
  · rw [jobsOut_length]; exact h16
  · rw [jobsOut_map_index, h16, List.range_eq_range']
  · exact jobsOut_map_id proj.jobs 0

/-- Witness for C9 at a concrete input: prompt "battle scene" with a
16-job provider project yields the ok response with indices 0..15. -/
theorem claim_C9_generate_response_witness :
    ¬(⟨"battle scene", "", "", none⟩ : GenerateBody).prompt = "" ∧
    (⟨"pid", (List.range 16).map toString⟩ : ProviderProject).jobs.length
      = (mkProviderRequest "battle scene" "" "" none).numberOfImages ∧
    generateRoute ⟨"battle scene", "", "", none⟩
        (Except.ok ⟨"pid", (List.range 16).map toString⟩)
      = RouteResult.ok ⟨"pid", jobsOut ((List.range 16).map toString) 0⟩ ∧
    (jobsOut ((List.range 16).map toString) 0).map JobRef.index = List.range 16 :=
  ⟨by decide, by decide,
   (claim_C9_generate_response ⟨"battle scene", "", "", none⟩
      ⟨"pid", (List.range 16).map toString⟩ (by decide) (by decide)).1,
   (claim_C9_generate_response ⟨"battle scene", "", "", none⟩
      ⟨"pid", (List.range 16).map toString⟩ (by decide) (by decide)).2.2.1⟩

/-- Claim C10 (amended): `generateOnePieceVariations` computes exactly 16
prompt variations, the i-th combining the (i mod n)-th character, style
and scene choices with the base prompt; the variations need not be
distinct (with a custom character and a custom scene the 1st and 11th
coincide, since only the style rotates and it has period 10); and only
the first variation is passed to the provider, as the `positivePrompt` of
the single 16-image request — the remaining 15 never appear in the
request. -/
theorem claim_C10_variations (b c s : String) (seed : Option Int) :
    generateOnePieceVariations b c s = (List.range 16).map (mkVariation b c s) ∧
    (generateOnePieceVariations b c s).length = 16 ∧
    (mkProviderRequest b c s seed).positivePrompt
      = (generateOnePieceVariations b c s).getD 0 "" ∧
    (mkProviderRequest b c s seed).numberOfImages = 16 :=
  ⟨generateOnePieceVariations_eq b c s, gen_length b c s,
   by simp [mkProviderRequest], by simp [mkProviderRequest]⟩

/-- Counterexample to C10 as stated: with a custom character and scene the
1st and 11th variations are the same string, so the 16 variations are not
distinct. -/
theorem claim_C10_counterexample :
    (generateOnePieceVariations "x" "Monkey D. Luffy" "battle scene").getD 0 ""
      = (generateOnePieceVariations "x" "Monkey D. Luffy" "battle scene").getD 10 "" ∧
    ¬(generateOnePieceVariations "x" "Monkey D. Luffy" "battle scene").Nodup := by
  have hmk : mkVariation "x" "Monkey D. Luffy" "battle scene" 0
      = mkVariation "x" "Monkey D. Luffy" "battle scene" 10 := by
    simp [mkVariation, charactersOf, scenesOf, styles]
  have hg : ∀ i : Nat, i < 16 →
      ((List.range 16).map (mkVariation "x" "Monkey D. Luffy" "battle scene")).getD i ""
        = mkVariation "x" "Monkey D. Luffy" "battle scene" i := by
    intro i hi
    simp [List.getD, List.getElem?_map, List.getElem?_range hi]
  constructor
  · rw [generateOnePieceVariations_eq, hg 0 (by norm_num), hg 10 (by norm_num)]
    exact hmk
  · intro hnodup
    rw [generateOnePieceVariations_eq] at hnodup
    have h01 : ((List.range 16).map
          (mkVariation "x" "Monkey D. Luffy" "battle scene")).get
        ⟨0, by simp⟩
        = ((List.range 16).map
            (mkVariation "x" "Monkey D. Luffy" "battle scene")).get
          ⟨10, by simp⟩ := by
      rw [← List.getD_eq_get _ "", ← List.getD_eq_get _ ""]
      rw [hg 0 (by norm_num), hg 10 (by norm_num)]
      exact hmk
    have h := (List.Nodup.get_inj_iff hnodup).mp h01
    have hv := congrArg Fin.val h
    simp at hv

end Gen
